import Mathlib

/-!
Verification development for `ufits-OTU_cluster.py` (the amptk repository's
UPARSE OTU-clustering driver script).

The Python 2 script is embedded shallowly:

* strings are `List Char` (abbreviated `LC`) wherever character-level
  operations matter, and `String` for pipeline file names;
* the Python 2 `dict` built by `dereplicate` is modelled by an
  insertion-ordered association list for its key-to-value contents,
  together with an explicit model of the CPython 2.7 hash table
  (64-bit string hash with hash randomization off, open addressing over
  the initial 8-slot table) for its iteration order;
* `subprocess.call` invocations are modelled as pure command-argument
  lists, and the whole pipeline as the ordered list of steps it executes;
* a `none` result models a raised Python exception (`IndexError`,
  `ValueError`), and `Except.error n` models `os._exit(n)`.
-/

namespace Amptk

/-- Character-list strings, the model of Python `str` values. -/
abbrev LC := List Char

/-- Shorthand to turn a Lean string literal into the `List Char` model. -/
def lc (s : String) : LC := s.toList

/-! ### Decimal printing and parsing

`dereplicate` stores its duplicate counts inside annotation strings with
Python `str(count)` and re-reads them with `int(...)`.  `natToChars`
models `str` on naturals; `parseNat` models `int` on the nonempty digit
strings that the annotations actually contain (`int` would also accept
signs and surrounding whitespace, which never occur in those values). -/

/-- The decimal digit character for `n < 10`. -/
def digitChar (n : Nat) : Char := Char.ofNat (48 + n)

/-- Fuel-driven decimal rendering; with fuel above `n` it agrees with the
mathematical most-significant-digit-first rendering. -/
def natToCharsAux : Nat → Nat → LC
  | 0, _ => []
  | fuel + 1, n =>
    if n < 10 then [digitChar n]
    else natToCharsAux fuel (n / 10) ++ [digitChar (n % 10)]

/-- Python `str(n)` for a natural number. -/
def natToChars (n : Nat) : LC := natToCharsAux (n + 1) n

/-- The value of a decimal digit character, `none` on non-digits. -/
def charDigit (c : Char) : Option Nat :=
  if 48 ≤ c.toNat ∧ c.toNat ≤ 57 then some (c.toNat - 48) else none

/-- Accumulating decimal parser. -/
def parseNatAux : Nat → LC → Option Nat
  | acc, [] => some acc
  | acc, c :: rest =>
    match charDigit c with
    | none => none
    | some d => parseNatAux (acc * 10 + d) rest

/-- Python `int(s)` on digit strings; `none` models a `ValueError`. -/
def parseNat : LC → Option Nat
  | [] => none
  | c :: rest => parseNatAux 0 (c :: rest)

/-! ### The string surgery of `dereplicate` (script lines 73 and 74)

`v.split('=')[-1]` is the segment after the last `'='`, `rstrip(';')`
removes trailing semicolons, and `v.rsplit('=', 1)[0]` is everything
before the last `'='`. -/

/-- Python `v.split('=')[-1]`: the whole string when `'='` is absent. -/
def lastEqSeg (v : LC) : LC := (v.reverse.takeWhile (fun c => c != '=')).reverse

/-- Python `v.rstrip(';')`. -/
def rstripSemi (v : LC) : LC := (v.reverse.dropWhile (fun c => c == ';')).reverse

/-- Python `int(v.split('=')[-1].rstrip(';'))` from script line 73. -/
def parseSize (v : LC) : Option Nat := parseNat (rstripSemi (lastEqSeg v))

/-- Python `v.rsplit('=', 1)[0]`: everything before the last `'='`, the
whole string when `'='` is absent. -/
def rsplitHead (v : LC) : LC :=
  if '=' ∈ v then ((v.reverse.dropWhile (fun c => c != '=')).drop 1).reverse else v

/-- One repeat occurrence of a sequence, script lines 73 and 74:
`count = int(v.split('=')[-1].rstrip(';')) + 1` followed by
`v.rsplit('=', 1)[0] + '=' + str(count) + ';'`. -/
def bumpSize (v : LC) : Option LC :=
  match parseSize v with
  | none => none
  | some n => some (rsplitHead v ++ '=' :: (natToChars (n + 1) ++ [';']))

/-! ### The dereplication dict (script lines 65 to 75)

The Python 2 `dict` named `seqs` maps sequence strings to annotation
strings.  Its key-to-value contents are modelled by an association list
that appends new keys at the end (keys stay unique, so lookup and
in-place value update are exactly dict semantics); its iteration order
is modelled separately below. -/

/-- `seqs[k]` as an `Option`: dict lookup over the association list. -/
def assocLookup (k : LC) : List (LC × LC) → Option LC
  | [] => none
  | (k2, v) :: rest => if k2 = k then some v else assocLookup k rest

/-- `seqs[k] = v` for a key already present: in-place value update. -/
def assocUpdate (k v : LC) : List (LC × LC) → List (LC × LC)
  | [] => []
  | (k2, v2) :: rest =>
    if k2 = k then (k2, v) :: rest else (k2, v2) :: assocUpdate k v rest

/-- The record loop of `dereplicate` (script lines 68 to 75): the input
is the list of `(rec.id, str(rec.seq))` pairs of the FASTQ file in file
order.  On a first occurrence the code stores `rec.id + 'size=1;'`
(note: no separator between the identifier and the annotation); on a
repeat it re-parses and bumps the trailing count. -/
def derepRun : List (LC × LC) → List (LC × LC) → Option (List (LC × LC))
  | seqs, [] => some seqs
  | seqs, (i, sq) :: rest =>
    match assocLookup sq seqs with
    | none => derepRun (seqs ++ [(sq, i ++ lc "size=1;")]) rest
    | some v =>
      match bumpSize v with
      | none => none
      | some v2 => derepRun (assocUpdate sq v2 seqs) rest

/-- The dict contents built by `dereplicate` from the parsed records. -/
def dereplicate (recs : List (LC × LC)) : Option (List (LC × LC)) :=
  derepRun [] recs

/-! ### A closed-form description of the dereplication dict -/

/-- First-encounter deduplication: keep each element at its first
occurrence, scanning left to right, with `seen` already excluded. -/
def feAux (seen : List LC) : List LC → List LC
  | [] => []
  | x :: xs => if x ∈ seen then feAux seen xs else x :: feAux (x :: seen) xs

/-- The distinct elements of a list in first-encounter order. -/
def firstEncounter (l : List LC) : List LC := feAux [] l

/-- How many records of the input carry sequence `k`. -/
def countOcc (recs : List (LC × LC)) (k : LC) : Nat :=
  (recs.filter (fun r => decide (r.2 = k))).length

/-- The identifier of the first input record carrying sequence `k`. -/
def firstId : List (LC × LC) → LC → LC
  | [], _ => []
  | r :: rest, k => if r.2 = k then r.1 else firstId rest k

/-- An annotation value of shape `p` then `'='` then digits then `';'`. -/
def tagged (p : LC) (n : Nat) : LC := p ++ '=' :: (natToChars n ++ [';'])

/-- The closed form of the dict entry for sequence `k`. -/
def canonVal (recs : List (LC × LC)) (k : LC) : LC :=
  tagged (firstId recs k ++ lc "size") (countOcc recs k)

/-- The closed form of the whole dereplication dict: first-encounter
keys, each valued by its first identifier and its occurrence count. -/
def canonDerep (recs : List (LC × LC)) : List (LC × LC) :=
  (firstEncounter (recs.map Prod.snd)).map (fun k => (k, canonVal recs k))

/-! ### CPython 2.7 dict iteration order (script lines 76 to 78)

`for sequence in seqs:` iterates the hash table's slot array from index
0 upward.  For a fresh dict that never exceeds five entries CPython
keeps the initial table of 8 slots (it resizes only when two thirds
fill), so the model below, fixed at 8 slots, is exact in that regime,
which covers the inputs used here.  The string hash is CPython 2.7's
64-bit `string_hash` (hash randomization is off by default), and probing
is CPython's `i = 5*i + perturb + 1`, `perturb >>= 5` open addressing. -/

/-- `2 ^ 64`, the modulus of CPython's C long arithmetic. -/
def two64 : Nat := 18446744073709551616

/-- CPython 2.7 `string_hash` reduced to an unsigned 64-bit value:
`x = ord(s[0]) << 7`, then `x = (1000003 * x) ^ ord(c)` over every
character, then `x ^= len(s)`, with `-1` remapped to `-2`. -/
def pyHashStr (s : LC) : Nat :=
  match s with
  | [] => 0
  | c :: _ =>
    let x0 := (c.toNat <<< 7) % two64
    let x1 := s.foldl (fun h ch => (1000003 * h % two64) ^^^ ch.toNat) x0
    let x2 := x1 ^^^ s.length
    if x2 = two64 - 1 then two64 - 2 else x2

/-- Probe the 8-slot table for the first empty slot along the CPython
probe sequence starting at index `i` with perturbation `p`; fuel bounds
the walk (64 probes always suffice on a table with an empty slot). -/
def probeEmpty (k : LC) (t : List (Option LC)) : Nat → Nat → Nat → Option (List (Option LC))
  | _, _, 0 => none
  | i, p, fuel + 1 =>
    match t.getD (i % 8) none with
    | none => some (t.set (i % 8) (some k))
    | some _ => probeEmpty k t ((5 * i + p + 1) % two64) (p >>> 5) fuel

/-- Insert a key into the slot table: keys already present keep their
slot (the dict merely overwrites the value), new keys go to the first
empty slot of their probe sequence. -/
def dInsert (t : List (Option LC)) (k : LC) : Option (List (Option LC)) :=
  if k ∈ t.filterMap id then some t
  else probeEmpty k t (pyHashStr k % 8) (pyHashStr k) 64

/-- The iteration order of a CPython 2.7 dict whose keys were inserted
in the given order: occupied slots read from slot 0 upward. -/
def dictOrder (keys : List LC) : Option (List LC) :=
  match keys.foldlM dInsert (List.replicate 8 (none : Option LC)) with
  | none => none
  | some t => some (t.filterMap id)

/-- The write loop body: for each key of the iteration order, emit the
pair of the header `'>' + seqs[sequence]` and the sequence line. -/
def lookupAll (seqs : List (LC × LC)) : List LC → Option (List (LC × LC))
  | [] => some []
  | k :: ks =>
    match assocLookup k seqs with
    | none => none
    | some v =>
      match lookupAll seqs ks with
      | none => none
      | some rest => some (('>' :: v, k) :: rest)

/-- The output pass of `dereplicate` (script lines 76 to 78): iterate
the dict in hash-table order and emit, per sequence, the header
`'>' + seqs[sequence]` and the sequence line. -/
def derepOutputRecords (recs : List (LC × LC)) : Option (List (LC × LC)) :=
  match dereplicate recs with
  | none => none
  | some seqs =>
    match dictOrder (recs.map Prod.snd) with
    | none => none
    | some order => lookupAll seqs order

/-! ### Padding cleanup (script lines 173 to 183)

Lines are modelled without their trailing newline; the regular
expression `re.sub('[^GATC]', '', line)` removes the newline as well and
the code re-appends one, so per line content the transformation is an
exact character filter, with empty results dropped. -/

/-- Python `line.startswith('>')`: the first character is `'>'`. -/
def headerLine (l : LC) : Bool :=
  match l with
  | c :: _ => c == '>'
  | [] => false

/-- Membership in the exact character set `{G, A, T, C}`. -/
def isGATC (c : Char) : Bool := c == 'G' || c == 'A' || c == 'T' || c == 'C'

/-- Python `re.sub('[^GATC]', '', line)` on a line's content. -/
def subGATC (l : LC) : LC := l.filter isGATC

/-- The padding cleanup loop: header lines are copied verbatim, other
lines are filtered to `{G, A, T, C}` and dropped when empty. -/
def cleanPadding : List LC → List LC
  | [] => []
  | l :: rest =>
    if headerLine l then l :: cleanPadding rest
    else if subGATC l = [] then cleanPadding rest
    else subGATC l :: cleanPadding rest

/-! ### Mock annotation rewrite (script lines 226 to 240) -/

/-- Python `str.split()` whitespace (space, tab, newline, return,
vertical tab, form feed). -/
def isPyWs (c : Char) : Bool :=
  c == ' ' || c == '\t' || c == '\n' || c == '\r' ||
  c == Char.ofNat 11 || c == Char.ofNat 12

/-- Accumulator-based splitter behind `splitWs`. -/
def splitWsAux : LC → LC → List LC
  | cur, [] => if cur = [] then [] else [cur.reverse]
  | cur, c :: rest =>
    if isPyWs c then
      if cur = [] then splitWsAux [] rest else cur.reverse :: splitWsAux [] rest
    else splitWsAux (c :: cur) rest

/-- Python `s.split()`: split on whitespace runs, discarding empties. -/
def splitWs (l : LC) : List LC := splitWsAux [] l

/-- One line of the mock annotation rewrite loop.  For a header line the
code drops the `'>'`, splits on whitespace and indexes token 0 (`none`
models the `IndexError` on a tokenless header); a hit in
`annotate_dict` emits `'>' + label`, a miss emits
`'>' + ''.join(tokens)`, which concatenates every token.  Other lines
pass through unchanged. -/
def mockAnnotateLine (annot : List (LC × LC)) (line : LC) : Option LC :=
  if headerLine line then
    match splitWs (line.drop 1) with
    | [] => none
    | t0 :: rest =>
      match assocLookup t0 annot with
      | some label => some ('>' :: label)
      | none => some ('>' :: (t0 :: rest).flatten)
  else some line

/-- The whole rewrite pass over the OTU FASTA lines. -/
def mockAnnotate (annot : List (LC × LC)) (lines : List LC) : Option (List LC) :=
  lines.mapM (mockAnnotateLine annot)

/-! ### Mock accuracy aggregation (script lines 285 to 298) -/

/-- Substring containment, Python `pat in s`. -/
def isSubSeg (pat s : LC) : Bool :=
  (List.range (s.length + 1)).any (fun i => (s.drop i).take pat.length == pat)

/-- Python `"OTU" in row[0]`. -/
def containsOTU (s : LC) : Bool := isSubSeg (lc "OTU") s

/-- A table row with a strictly positive abundance in the mock column
(the code reads `int(row[1]) > 0`; rows carry the parsed abundance). -/
def isPos (r : LC × Int) : Bool := decide (0 < r.2)

/-- A positive row whose identifier lacks the substring `OTU`. -/
def goodRow (r : LC × Int) : Bool := isPos r && !containsOTU r.1

/-- A positive row whose identifier contains the substring `OTU`. -/
def badRow (r : LC × Int) : Bool := isPos r && containsOTU r.1

/-- The mutable state of the aggregation loop. -/
structure MockStats where
  num_otus : Int
  mock_found : Int
  good_otu : List Int
  bad_otu : List Int

/-- One iteration of the loop at script lines 289 to 296. -/
def mockStep (s : MockStats) (row : LC × Int) : MockStats :=
  if 0 < row.2 then
    let n1 := s.num_otus + 1
    let mf1 := if containsOTU row.1 = false then s.mock_found + 1 else s.mock_found
    let g1 := if containsOTU row.1 = false then s.good_otu ++ [row.2] else s.good_otu
    let b1 := if containsOTU row.1 = true then s.bad_otu ++ [row.2] else s.bad_otu
    ⟨n1, mf1, g1, b1⟩
  else s

/-- The zero-initialised counters of script lines 285 to 288. -/
def mockInit : MockStats := ⟨0, 0, [], []⟩

/-- The whole aggregation loop over the kept table rows. -/
def mockLoop (rows : List (LC × Int)) : MockStats :=
  rows.foldl mockStep mockInit

/-- Script line 297, `spurious = num_otus - mock_found`. -/
def spuriousOf (s : MockStats) : Int := s.num_otus - s.mock_found

/-! ### Accuracy report printing (script lines 305 to 321) -/

/-- Stable insertion into an ascending list. -/
def insertAsc (x : Int) : List Int → List Int
  | [] => [x]
  | y :: ys => if x ≤ y then x :: y :: ys else y :: insertAsc x ys

/-- Python `sorted(l, key=int)` on integers: ascending sort. -/
def sortAsc (l : List Int) : List Int := l.foldr insertAsc []

/-- Stable insertion into a descending list. -/
def insertDesc (x : Int) : List Int → List Int
  | [] => [x]
  | y :: ys => if y ≤ x then x :: y :: ys else y :: insertDesc x ys

/-- Python `sorted(l, key=int, reverse=True)`: descending sort. -/
def sortDesc (l : List Int) : List Int := l.foldr insertDesc []

/-- The real-OTU half of the report (script lines 305 to 309): when
`mock_found != 0` the code prints `good_otu[-1]`, `good_otu[0]`, then
unconditionally `good_otu[0]`, `good_otu[1]`, `good_otu[2]`, then the
total.  The result collects the printed numbers; `none` models the
`IndexError` raised when an index is out of range. -/
def reportReal (s : MockStats) : Option (List Int) :=
  if s.mock_found ≠ 0 then
    let g := sortAsc s.good_otu
    match g.getLast?, g.get? 0, g.get? 1, g.get? 2 with
    | some a, some b0, some b1, some b2 => some [a, b0, b0, b1, b2, s.good_otu.sum]
    | _, _, _, _ => none
  else some []

/-- The spurious half of the report (script lines 310 to 321): when
`spurious != 0` the code prints `bad_otu[0]`, `bad_otu[-1]`, then
branches on `spurious >= 3`, `spurious == 2`, `spurious == 1` to print
only the entries that exist, then the total. -/
def reportSpurious (s : MockStats) : Option (List Int) :=
  if spuriousOf s ≠ 0 then
    let b := sortDesc s.bad_otu
    match b.get? 0, b.getLast? with
    | some h0, some hl =>
      if spuriousOf s ≥ 3 then
        match b.get? 1, b.get? 2 with
        | some h1, some h2 => some [h0, hl, h0, h1, h2, b.sum]
        | _, _ => none
      else if spuriousOf s = 2 then
        match b.get? 1 with
        | some h1 => some [h0, hl, h0, h1, b.sum]
        | none => none
      else if spuriousOf s = 1 then some [h0, hl, h0, b.sum]
      else some [h0, hl, b.sum]
    | _, _ => none
  else some []

/-- The whole accuracy report for a row set: aggregation followed by the
real half, then the spurious half; `none` models a crash. -/
def accuracyReport (rows : List (LC × Int)) : Option (List Int) :=
  match reportReal (mockLoop rows), reportSpurious (mockLoop rows) with
  | some xs, some ys => some (xs ++ ys)
  | _, _ => none

/-! ### Pipeline dataflow (script lines 116 to 258)

The configuration mirrors the argparse options; the `lib/...` database
paths stand for `os.path.join(script_path, 'lib', ...)` with the script
directory elided.  Internal Python stages and external `subprocess`
calls are both recorded as steps, in the exact order of the script. -/

/-- The argparse options that shape the pipeline. -/
structure Config where
  fastq : String
  out : String
  maxee : String
  trunclen : String
  pct_otu : Int
  minsize : String
  usearch : String
  mock : String
  mc : String
  uchime_ref : String
  map_unfiltered : Bool
  unoise : Bool
  sizeAnnot : Bool

def filter_out (c : Config) : String := c.out ++ ".EE" ++ c.maxee ++ ".filter.fq"

def derep_out (c : Config) : String := c.out ++ ".EE" ++ c.maxee ++ ".derep.fa"

/-- Script lines 142 to 150: the UNOISE output, or the dereplication
output carried forward when denoising is disabled. -/
def unoise_out (c : Config) : String :=
  if c.unoise then c.out ++ ".EE" ++ c.maxee ++ ".denoised.fa" else derep_out c

def sort_out (c : Config) : String := c.out ++ ".EE" ++ c.maxee ++ ".sort.fa"

def otu_out (c : Config) : String := c.out ++ ".EE" ++ c.maxee ++ ".otus.fa"

def otu_clean (c : Config) : String := c.out ++ ".EE" ++ c.maxee ++ ".clean.otus.fa"

/-- Script lines 186 to 189: the chimera-filter output, or the cleaned
OTU file carried forward when the stage is disabled. -/
def uchime_out (c : Config) : String :=
  if c.uchime_ref = "False" then otu_clean c
  else c.out ++ ".EE" ++ c.maxee ++ ".uchime.otus.fa"

def otu_new (c : Config) : String := c.out ++ ".EE" ++ c.maxee ++ ".mock.otus.fa"

/-- Script line 241 reassigns the current-OTU pointer to the
mock-annotated file when the mock stage ran. -/
def finalOtuFile (c : Config) : String :=
  if c.mock ≠ "False" then otu_new c else uchime_out c

def uchime_db (c : Config) : String :=
  if c.uchime_ref = "ITS1" then "lib/uchime_sh_refs_dynamic_develop_985_11.03.2015.ITS1.fasta"
  else if c.uchime_ref = "ITS2" then "lib/uchime_sh_refs_dynamic_develop_985_11.03.2015.ITS2.fasta"
  else "lib/uchime_sh_refs_dynamic_original_985_11.03.2015.fasta"

def mockFile (c : Config) : String :=
  if c.mc = "ufits_mock3.fa" then "lib/ufits_mock3.fa" else c.mc

/-- Script line 130. -/
def filterCmd (c : Config) : List String :=
  [c.usearch, "-fastq_filter", c.fastq, "-fastq_trunclen", c.trunclen,
   "-fastq_maxee", c.maxee, "-fastqout", filter_out c]

/-- Script line 146. -/
def unoiseCmd (c : Config) : List String :=
  [c.usearch, "-cluster_fast", derep_out c, "-centroids", unoise_out c, "-id", "0.9",
   "-maxdiffs", "5", "-abskew", "10", "-sizein", "-sizeout", "-sort", "size"]

/-- Script line 156. -/
def sortCmd (c : Config) : List String :=
  [c.usearch, "-sortbysize", unoise_out c, "-minsize", c.minsize, "-fastaout", sort_out c]

/-- Script lines 162 to 167 (with or without size annotations). -/
def clusterCmd (c : Config) : List String :=
  if c.sizeAnnot then
    [c.usearch, "-cluster_otus", sort_out c, "-sizein", "-sizeout", "-relabel", "OTU_",
     "-otu_radius_pct", toString (100 - c.pct_otu), "-otus", otu_out c]
  else
    [c.usearch, "-cluster_otus", sort_out c, "-relabel", "OTU_",
     "-otu_radius_pct", toString (100 - c.pct_otu), "-otus", otu_out c]

/-- Script line 199: the actual chimera-filter invocation.  Note that
its query argument is `otu_out`, the raw clustering output. -/
def uchimeCmd (c : Config) : List String :=
  [c.usearch, "-uchime_ref", otu_out c, "-strand", "plus", "-db", uchime_db c,
   "-nonchimeras", uchime_out c]

/-- Script line 198: the command the script logs before the call, whose
query argument is `otu_clean`, the padding-cleaned file. -/
def uchimeLoggedCmd (c : Config) : List String :=
  [c.usearch, "-uchime_ref", otu_clean c, "-strand", "plus", "-db", uchime_db c,
   "-nonchimeras", uchime_out c]

/-- Script line 216. -/
def mockMapCmd (c : Config) : List String :=
  [c.usearch, "-usearch_global", uchime_out c, "-strand", "plus", "-id", "0.97",
   "-db", mockFile c, "-uc", c.out ++ ".mockmap.uc"]

/-- Script lines 244 to 251. -/
def mapReadsCmd (c : Config) : List String :=
  [c.usearch, "-usearch_global", (if c.map_unfiltered then c.fastq else filter_out c),
   "-strand", "plus", "-id", "0.97", "-db", finalOtuFile c,
   "-uc", c.out ++ ".EE" ++ c.maxee ++ ".mapping.uc"]

/-- Script line 258. -/
def uc2tabCmd (c : Config) : List String :=
  ["lib/uc2otutable.py", c.out ++ ".EE" ++ c.maxee ++ ".mapping.uc",
   c.out ++ ".EE" ++ c.maxee ++ ".otu_table.txt"]

/-- A pipeline step: an external call or an internal Python stage
(dereplication, padding cleanup, mock annotation) with its input and
output file names. -/
inductive Step where
  | run (cmd : List String)
  | derepStage (src dst : String)
  | cleanStage (src dst : String)
  | annotateStage (src dst : String)

/-- The ordered stages the script executes after the size guard. -/
def pipelineSteps (c : Config) : List Step :=
  [Step.run (filterCmd c), Step.derepStage (filter_out c) (derep_out c)]
  ++ (if c.unoise then [Step.run (unoiseCmd c)] else [])
  ++ [Step.run (sortCmd c), Step.run (clusterCmd c),
      Step.cleanStage (otu_out c) (otu_clean c)]
  ++ (if c.uchime_ref = "False" then [] else [Step.run (uchimeCmd c)])
  ++ (if c.mock = "False" then []
      else [Step.run (mockMapCmd c), Step.annotateStage (uchime_out c) (otu_new c)])
  ++ [Step.run (mapReadsCmd c), Step.run (uc2tabCmd c)]

/-- Script lines 120 to 124 followed by the stages: a file of
`4294967296` bytes or more makes the script print a warning and call
`os._exit(1)` before any processing stage; otherwise the stages run. -/
def pipelineRun (c : Config) (size : Nat) : Except Nat (List Step) :=
  if 4294967296 ≤ size then Except.error 1 else Except.ok (pipelineSteps c)

/-- A concrete configuration with every argparse default. -/
def cfgEx : Config :=
  ⟨"input.fq", "out", "1.0", "250", 97, "2", "usearch8",
   "False", "ufits_mock3.fa", "False", false, false, false⟩

/-- The default configuration with the chimera filter enabled. -/
def cfgUch : Config :=
  ⟨"input.fq", "out", "1.0", "250", 97, "2", "usearch8",
   "False", "ufits_mock3.fa", "ITS1", false, false, false⟩

/-! ## Lemmas about decimal printing and parsing -/

theorem digitChar_toNat {n : Nat} (h : n < 10) : (digitChar n).toNat = 48 + n := by
  interval_cases n <;> decide

theorem charDigit_digitChar {n : Nat} (h : n < 10) : charDigit (digitChar n) = some n := by
  interval_cases n <;> decide

theorem natToCharsAux_eq : ∀ (f1 : Nat), ∀ (n f2 : Nat), n < f1 → n < f2 →
    natToCharsAux f1 n = natToCharsAux f2 n := by
  intro f1
  induction f1 with
  | zero => intro n f2 h1 _; omega
  | succ f ih =>
    intro n f2 h1 h2
    cases f2 with
    | zero => omega
    | succ f3 =>
      simp only [natToCharsAux]
      by_cases h10 : n < 10
      · simp [h10]
      · have hdiv : n / 10 < n := Nat.div_lt_self (by omega) (by omega)
        simp only [h10, if_false]
        rw [ih (n / 10) f3 (by omega) (by omega)]

theorem natToChars_lt {n : Nat} (h : n < 10) : natToChars n = [digitChar n] := by
  simp [natToChars, natToCharsAux, h]

theorem natToChars_ge {n : Nat} (h : ¬ n < 10) :
    natToChars n = natToChars (n / 10) ++ [digitChar (n % 10)] := by
  have hdiv : n / 10 < n := Nat.div_lt_self (by omega) (by omega)
  have h1 : natToChars n = natToCharsAux n (n / 10) ++ [digitChar (n % 10)] := by
    simp only [natToChars, natToCharsAux, h, if_false]
  rw [h1, natToCharsAux_eq n (n / 10) (n / 10 + 1) hdiv (by omega)]
  rfl

theorem natToChars_digits : ∀ n : Nat, ∀ c ∈ natToChars n, 48 ≤ c.toNat ∧ c.toNat ≤ 57 := by
  intro n
  induction n using Nat.strong_induction_on with
  | _ n ih =>
    by_cases h : n < 10
    · rw [natToChars_lt h]
      intro c hc
      rw [List.mem_singleton] at hc
      subst hc
      rw [digitChar_toNat h]
      omega
    · rw [natToChars_ge h]
      intro c hc
      rcases List.mem_append.1 hc with h1 | h2
      · exact ih (n / 10) (Nat.div_lt_self (by omega) (by omega)) c h1
      · rw [List.mem_singleton] at h2
        subst h2
        rw [digitChar_toNat (Nat.mod_lt _ (by omega))]
        have := Nat.mod_lt n (show 0 < 10 by omega)
        omega

theorem natToChars_ne_nil (n : Nat) : natToChars n ≠ [] := by
  by_cases h : n < 10
  · rw [natToChars_lt h]; simp
  · rw [natToChars_ge h]; simp

theorem parseNatAux_append {acc a : Nat} {l1 : LC} (l2 : LC)
    (h : parseNatAux acc l1 = some a) :
    parseNatAux acc (l1 ++ l2) = parseNatAux a l2 := by
  induction l1 generalizing acc with
  | nil =>
    simp only [parseNatAux] at h
    cases h
    simp
  | cons c rest ih =>
    simp only [parseNatAux, List.cons_append] at h ⊢
    cases hc : charDigit c with
    | none => rw [hc] at h; exact Option.noConfusion h
    | some d => rw [hc] at h; exact ih h

theorem parseNatAux_natToChars : ∀ n acc : Nat,
    parseNatAux acc (natToChars n) = some (acc * 10 ^ (natToChars n).length + n) := by
  intro n
  induction n using Nat.strong_induction_on with
  | _ n ih =>
    intro acc
    by_cases h : n < 10
    · rw [natToChars_lt h]
      simp [parseNatAux, charDigit_digitChar h]
    · rw [natToChars_ge h]
      have hdiv : n / 10 < n := Nat.div_lt_self (by omega) (by omega)
      rw [parseNatAux_append _ (ih (n / 10) hdiv acc)]
      have hm : n % 10 < 10 := Nat.mod_lt _ (by omega)
      simp only [parseNatAux, charDigit_digitChar hm, List.length_append,
        List.length_singleton]
      congr 1
      have hp : (10 : Nat) ^ ((natToChars (n / 10)).length + 1) =
          10 ^ (natToChars (n / 10)).length * 10 := by ring
      rw [hp, ← Nat.mul_assoc]
      have hdm := Nat.div_add_mod n 10
      set Q := acc * 10 ^ (natToChars (n / 10)).length
      omega

theorem parseNat_natToChars (n : Nat) : parseNat (natToChars n) = some n := by
  cases h : natToChars n with
  | nil => exact absurd h (natToChars_ne_nil n)
  | cons c rest =>
    have h2 := parseNatAux_natToChars n 0
    rw [h] at h2
    simpa [parseNat] using h2

/-! ## Lemmas about the annotation-string surgery -/

theorem natToChars_ne_eq {n : Nat} {c : Char} (hc : c ∈ natToChars n) : c ≠ '=' := by
  intro heq
  have := natToChars_digits n c hc
  rw [heq] at this
  simp at this

theorem natToChars_ne_semi {n : Nat} {c : Char} (hc : c ∈ natToChars n) : (c == ';') = false := by
  have hd := natToChars_digits n c hc
  rw [beq_eq_false_iff_ne]
  intro heq
  rw [heq] at hd
  simp at hd

theorem takeWhile_neq_append {l1 l2 : LC} (h : ∀ c ∈ l1, c ≠ '=') :
    (l1 ++ '=' :: l2).takeWhile (fun c => c != '=') = l1 := by
  induction l1 with
  | nil => simp [List.takeWhile]
  | cons c cs ih =>
    have hc : c ≠ '=' := h c (by simp)
    simp only [List.cons_append, List.takeWhile_cons]
    rw [if_pos (by simpa using hc)]
    rw [ih (fun d hd => h d (by simp [hd]))]

theorem dropWhile_neq_append {l1 l2 : LC} (h : ∀ c ∈ l1, c ≠ '=') :
    (l1 ++ '=' :: l2).dropWhile (fun c => c != '=') = '=' :: l2 := by
  induction l1 with
  | nil => simp [List.dropWhile]
  | cons c cs ih =>
    have hc : c ≠ '=' := h c (by simp)
    simp only [List.cons_append, List.dropWhile_cons]
    rw [if_pos (by simpa using hc)]
    exact ih (fun d hd => h d (by simp [hd]))

theorem reverse_tagged (p : LC) (n : Nat) :
    (tagged p n).reverse = (natToChars n ++ [';']).reverse ++ '=' :: p.reverse := by
  simp [tagged]

theorem mem_digits_semi {n : Nat} {c : Char}
    (hc : c ∈ (natToChars n ++ [';']).reverse) : c ≠ '=' := by
  rw [List.mem_reverse, List.mem_append] at hc
  rcases hc with h1 | h2
  · exact natToChars_ne_eq h1
  · rw [List.mem_singleton] at h2
    subst h2
    decide

theorem lastEqSeg_tagged (p : LC) (n : Nat) :
    lastEqSeg (tagged p n) = natToChars n ++ [';'] := by
  unfold lastEqSeg
  rw [reverse_tagged, takeWhile_neq_append (fun c hc => mem_digits_semi hc),
    List.reverse_reverse]

theorem rsplitHead_tagged (p : LC) (n : Nat) : rsplitHead (tagged p n) = p := by
  unfold rsplitHead
  rw [if_pos (by simp [tagged])]
  rw [reverse_tagged, dropWhile_neq_append (fun c hc => mem_digits_semi hc)]
  simp

theorem dropWhile_semi_digits (n : Nat) :
    (natToChars n).reverse.dropWhile (fun c => c == ';') = (natToChars n).reverse := by
  cases hrev : (natToChars n).reverse with
  | nil => simp
  | cons c cs =>
    have hmem : c ∈ (natToChars n).reverse := by rw [hrev]; exact List.mem_cons_self _ _
    have hne := natToChars_ne_semi (List.mem_reverse.1 hmem)
    rw [List.dropWhile_cons, if_neg (by simp [hne])]

theorem rstripSemi_digits (n : Nat) : rstripSemi (natToChars n ++ [';']) = natToChars n := by
  unfold rstripSemi
  rw [List.reverse_append]
  simp only [List.reverse_cons, List.reverse_nil, List.nil_append, List.singleton_append,
    List.dropWhile_cons]
  rw [if_pos (by decide), dropWhile_semi_digits, List.reverse_reverse]

theorem parseSize_tagged (p : LC) (n : Nat) : parseSize (tagged p n) = some n := by
  unfold parseSize
  rw [lastEqSeg_tagged, rstripSemi_digits, parseNat_natToChars]

theorem bumpSize_tagged (p : LC) (n : Nat) :
    bumpSize (tagged p n) = some (tagged p (n + 1)) := by
  unfold bumpSize
  rw [parseSize_tagged, rsplitHead_tagged]
  rfl

/-! ## Lemmas about first-encounter order and association lists -/

theorem mem_feAux : ∀ (l seen : List LC) (x : LC), x ∈ feAux seen l ↔ x ∈ l ∧ x ∉ seen := by
  intro l
  induction l with
  | nil => simp [feAux]
  | cons y ys ih =>
    intro seen x
    by_cases hy : y ∈ seen
    · rw [show feAux seen (y :: ys) = feAux seen ys from by simp [feAux, hy]]
      rw [ih]
      constructor
      · rintro ⟨h1, h2⟩; exact ⟨List.mem_cons_of_mem _ h1, h2⟩
      · rintro ⟨h1, h2⟩
        rcases List.mem_cons.1 h1 with rfl | h3
        · exact absurd hy h2
        · exact ⟨h3, h2⟩
    · rw [show feAux seen (y :: ys) = y :: feAux (y :: seen) ys from by simp [feAux, hy]]
      rw [List.mem_cons, ih, List.mem_cons, List.mem_cons]
      by_cases hxy : x = y
      · subst hxy
        simp [hy]
      · simp [hxy]

theorem feAux_nodup : ∀ (l seen : List LC), (feAux seen l).Nodup := by
  intro l
  induction l with
  | nil => intro seen; simp [feAux]
  | cons y ys ih =>
    intro seen
    by_cases hy : y ∈ seen
    · simpa [feAux, hy] using ih seen
    · rw [show feAux seen (y :: ys) = y :: feAux (y :: seen) ys from by simp [feAux, hy]]
      refine List.nodup_cons.2 ⟨?_, ih (y :: seen)⟩
      intro hmem
      exact ((mem_feAux ys (y :: seen) y).1 hmem).2 (List.mem_cons_self _ _)

theorem feAux_append_singleton : ∀ (l seen : List LC) (x : LC),
    feAux seen (l ++ [x]) = feAux seen l ++ (if x ∈ seen ∨ x ∈ l then [] else [x]) := by
  intro l
  induction l with
  | nil =>
    intro seen x
    by_cases hx : x ∈ seen <;> simp [feAux, hx]
  | cons y ys ih =>
    intro seen x
    by_cases hy : y ∈ seen
    · rw [List.cons_append,
        show feAux seen (y :: (ys ++ [x])) = feAux seen (ys ++ [x]) from by simp [feAux, hy],
        show feAux seen (y :: ys) = feAux seen ys from by simp [feAux, hy], ih]
      by_cases hxy : x = y <;> by_cases hxs : x ∈ seen <;> by_cases hxl : x ∈ ys <;>
        simp_all [List.mem_cons]
    · rw [List.cons_append,
        show feAux seen (y :: (ys ++ [x])) = y :: feAux (y :: seen) (ys ++ [x]) from by
          simp [feAux, hy],
        show feAux seen (y :: ys) = y :: feAux (y :: seen) ys from by simp [feAux, hy], ih]
      by_cases hxy : x = y <;> by_cases hxs : x ∈ seen <;> by_cases hxl : x ∈ ys <;>
        simp_all [List.mem_cons]

theorem assocLookup_keyfun (g : LC → LC) :
    ∀ (ks : List LC) (k : LC),
      assocLookup k (ks.map (fun k2 => (k2, g k2))) = if k ∈ ks then some (g k) else none := by
  intro ks
  induction ks with
  | nil => intro k; simp [assocLookup]
  | cons k0 ks ih =>
    intro k
    simp only [List.map_cons, assocLookup]
    by_cases h : k0 = k
    · subst h
      simp
    · rw [if_neg h, ih]
      by_cases hk : k ∈ ks
      · simp [hk]
      · simp [hk, Ne.symm h]

theorem assocUpdate_keyfun (g : LC → LC) (v : LC) :
    ∀ (ks : List LC) (k : LC), ks.Nodup →
      assocUpdate k v (ks.map (fun k2 => (k2, g k2)))
        = ks.map (fun k2 => (k2, if k2 = k then v else g k2)) := by
  intro ks
  induction ks with
  | nil => intro k _; simp [assocUpdate]
  | cons k0 ks ih =>
    intro k hnd
    rcases List.nodup_cons.1 hnd with ⟨h0, hnd2⟩
    simp only [List.map_cons, assocUpdate]
    by_cases h : k0 = k
    · subst h
      rw [if_pos rfl, if_pos rfl]
      congr 1
      refine (List.map_congr_left ?_).symm
      intro k2 hk2
      have hne : k2 ≠ k0 := fun heq => h0 (heq ▸ hk2)
      rw [if_neg hne]
    · rw [if_neg h, if_neg h, ih k hnd2]

/-! ## The closed form of the dereplication dict -/

theorem countOcc_append (l1 l2 : List (LC × LC)) (k : LC) :
    countOcc (l1 ++ l2) k = countOcc l1 k + countOcc l2 k := by
  simp [countOcc, List.filter_append]

theorem countOcc_single (i sq k : LC) :
    countOcc [(i, sq)] k = if sq = k then 1 else 0 := by
  by_cases h : sq = k <;> simp [countOcc, List.filter, h]

theorem countOcc_eq_zero {l : List (LC × LC)} {k : LC} (h : k ∉ l.map Prod.snd) :
    countOcc l k = 0 := by
  induction l with
  | nil => simp [countOcc]
  | cons r rs ih =>
    simp only [List.map_cons, List.mem_cons] at h
    push_neg at h
    have hr : ¬ r.2 = k := fun heq => h.1 heq.symm
    simp only [countOcc, List.filter_cons, decide_eq_true_eq]
    rw [if_neg hr]
    exact ih h.2

theorem countOcc_pos_mem {l : List (LC × LC)} {k : LC} (h : countOcc l k ≠ 0) :
    k ∈ l.map Prod.snd := by
  by_contra hmem
  exact h (countOcc_eq_zero hmem)

theorem firstId_append_left {l1 : List (LC × LC)} (l2 : List (LC × LC)) {k : LC}
    (h : k ∈ l1.map Prod.snd) : firstId (l1 ++ l2) k = firstId l1 k := by
  induction l1 with
  | nil => simp at h
  | cons r rs ih =>
    by_cases h0 : r.2 = k
    · simp [firstId, h0]
    · simp only [List.map_cons, List.mem_cons] at h
      rcases h with h1 | h2
      · exact absurd h1.symm h0
      · simp only [List.cons_append, firstId, if_neg h0]
        exact ih h2

theorem firstId_append_right {l1 : List (LC × LC)} (l2 : List (LC × LC)) {k : LC}
    (h : k ∉ l1.map Prod.snd) : firstId (l1 ++ l2) k = firstId l2 k := by
  induction l1 with
  | nil => simp
  | cons r rs ih =>
    simp only [List.map_cons, List.mem_cons] at h
    push_neg at h
    have hr : ¬ r.2 = k := fun heq => h.1 heq.symm
    rw [List.cons_append,
      show firstId (r :: (rs ++ l2)) k = if r.2 = k then r.1 else firstId (rs ++ l2) k from rfl,
      if_neg hr]
    exact ih h.2

theorem tag_one (i : LC) : tagged (i ++ lc "size") 1 = i ++ lc "size=1;" := by
  unfold tagged
  rw [List.append_assoc]
  congr 1

theorem canonDerep_nil : canonDerep [] = [] := rfl

theorem canonVal_append_ne {processed : List (LC × LC)} {k : LC} (i sq : LC)
    (hmem : k ∈ processed.map Prod.snd) (hne : k ≠ sq) :
    canonVal (processed ++ [(i, sq)]) k = canonVal processed k := by
  unfold canonVal
  rw [firstId_append_left _ hmem, countOcc_append, countOcc_single,
    if_neg (fun h => hne h.symm), Nat.add_zero]

theorem canonDerep_append_mem {processed : List (LC × LC)} {sq : LC} (i : LC)
    (hm : sq ∈ processed.map Prod.snd) :
    canonDerep (processed ++ [(i, sq)])
      = (firstEncounter (processed.map Prod.snd)).map
          (fun k => (k, if k = sq
            then tagged (firstId processed sq ++ lc "size") (countOcc processed sq + 1)
            else canonVal processed k)) := by
  unfold canonDerep firstEncounter
  rw [List.map_append, List.map_singleton]
  rw [feAux_append_singleton, if_pos (Or.inr hm), List.append_nil]
  refine List.map_congr_left ?_
  intro k hk
  have hkmem : k ∈ processed.map Prod.snd := ((mem_feAux _ _ _).1 hk).1
  by_cases hks : k = sq
  · subst hks
    rw [if_pos rfl]
    unfold canonVal
    rw [firstId_append_left _ hkmem, countOcc_append, countOcc_single, if_pos rfl]
  · rw [if_neg hks, canonVal_append_ne i sq hkmem hks]

theorem canonDerep_append_new {processed : List (LC × LC)} {sq : LC} (i : LC)
    (hm : sq ∉ processed.map Prod.snd) :
    canonDerep (processed ++ [(i, sq)])
      = canonDerep processed ++ [(sq, i ++ lc "size=1;")] := by
  unfold canonDerep firstEncounter
  rw [List.map_append, List.map_singleton]
  rw [feAux_append_singleton, if_neg (by simp [hm]), List.map_append]
  congr 1
  · refine List.map_congr_left ?_
    intro k hk
    have hkmem : k ∈ processed.map Prod.snd := ((mem_feAux _ _ _).1 hk).1
    rw [canonVal_append_ne i sq hkmem (fun heq => hm (heq ▸ hkmem))]
  · rw [List.map_singleton]
    unfold canonVal
    rw [firstId_append_right _ hm, countOcc_append, countOcc_eq_zero hm, countOcc_single,
      if_pos rfl]
    rw [show firstId [(i, sq)] sq = i from by simp [firstId]]
    rw [tag_one]

theorem derep_canon_aux : ∀ (rest processed : List (LC × LC)),
    derepRun (canonDerep processed) rest = some (canonDerep (processed ++ rest)) := by
  intro rest
  induction rest with
  | nil => intro processed; simp [derepRun]
  | cons r rs ih =>
    intro processed
    obtain ⟨i, sq⟩ := r
    have hlook := assocLookup_keyfun (canonVal processed)
      (firstEncounter (processed.map Prod.snd)) sq
    by_cases hm : sq ∈ processed.map Prod.snd
    · have hmfe : sq ∈ firstEncounter (processed.map Prod.snd) :=
        (mem_feAux _ _ _).2 ⟨hm, by simp⟩
      rw [if_pos hmfe] at hlook
      have hlook2 : assocLookup sq (canonDerep processed)
          = some (tagged (firstId processed sq ++ lc "size") (countOcc processed sq)) := hlook
      have hupd : assocUpdate sq
          (tagged (firstId processed sq ++ lc "size") (countOcc processed sq + 1))
          (canonDerep processed) = canonDerep (processed ++ [(i, sq)]) := by
        rw [canonDerep_append_mem i hm]
        exact assocUpdate_keyfun _ _ _ sq (feAux_nodup _ _)
      simp only [derepRun, hlook2, bumpSize_tagged]
      rw [hupd, ih (processed ++ [(i, sq)]), List.append_assoc]
      rfl
    · have hmfe : sq ∉ firstEncounter (processed.map Prod.snd) := by
        intro hc
        exact hm ((mem_feAux _ _ _).1 hc).1
      rw [if_neg hmfe] at hlook
      have hlook2 : assocLookup sq (canonDerep processed) = none := hlook
      simp only [derepRun, hlook2]
      rw [show canonDerep processed ++ [(sq, i ++ lc "size=1;")]
          = canonDerep (processed ++ [(i, sq)]) from (canonDerep_append_new i hm).symm]
      rw [ih (processed ++ [(i, sq)]), List.append_assoc]
      rfl

/-- The master description of `dereplicate`: it always succeeds und its
dict contents are exactly the first-encounter keys, each valued by the
first-seen identifier, the literal `size`, and the occurrence count. -/
theorem derep_canon (recs : List (LC × LC)) : dereplicate recs = some (canonDerep recs) := by
  have h := derep_canon_aux recs []
  rw [canonDerep_nil] at h
  simpa [dereplicate] using h

/-! ## Counting the sizes -/

theorem count_split : ∀ (l : List LC) (x : LC) (seen : List LC), x ∉ seen →
    (l.filter (fun y => decide (y = x))).length
      + (l.filter (fun y => decide (y ∉ x :: seen))).length
      = (l.filter (fun y => decide (y ∉ seen))).length := by
  intro l
  induction l with
  | nil => intro x seen _; simp
  | cons y ys ih =>
    intro x seen hx
    have ihx := ih x seen hx
    by_cases hyx : y = x
    · subst hyx
      simp [List.filter_cons, List.mem_cons, hx] at ihx ⊢
      omega
    · by_cases hys : y ∈ seen
      · simp [List.filter_cons, List.mem_cons, hyx, hys] at ihx ⊢
        omega
      · simp [List.filter_cons, List.mem_cons, hyx, hys] at ihx ⊢
        omega

theorem sum_counts : ∀ (l seen : List LC),
    ((feAux seen l).map (fun k => (l.filter (fun y => decide (y = k))).length)).sum
      = (l.filter (fun y => decide (y ∉ seen))).length := by
  intro l
  induction l with
  | nil => intro seen; simp [feAux]
  | cons x xs ih =>
    intro seen
    by_cases hx : x ∈ seen
    · rw [show feAux seen (x :: xs) = feAux seen xs from by simp [feAux, hx]]
      have hmap : (feAux seen xs).map
            (fun k => ((x :: xs).filter (fun y => decide (y = k))).length)
          = (feAux seen xs).map (fun k => (xs.filter (fun y => decide (y = k))).length) := by
        refine List.map_congr_left ?_
        intro k hk
        have hkx : ¬ x = k := by
          intro heq
          exact ((mem_feAux _ _ _).1 hk).2 (heq ▸ hx)
        rw [List.filter_cons, if_neg (by simpa using hkx)]
      rw [hmap, ih seen, List.filter_cons, if_neg (by simpa using hx)]
    · rw [show feAux seen (x :: xs) = x :: feAux (x :: seen) xs from by simp [feAux, hx]]
      rw [List.map_cons, List.sum_cons]
      have hmap : (feAux (x :: seen) xs).map
            (fun k => ((x :: xs).filter (fun y => decide (y = k))).length)
          = (feAux (x :: seen) xs).map (fun k => (xs.filter (fun y => decide (y = k))).length) := by
        refine List.map_congr_left ?_
        intro k hk
        have hkx : ¬ x = k := by
          intro heq
          exact ((mem_feAux _ _ _).1 hk).2 (heq ▸ List.mem_cons_self x seen)
        rw [List.filter_cons, if_neg (by simpa using hkx)]
      rw [hmap, ih (x :: seen)]
      rw [show ((x :: xs).filter (fun y => decide (y = x))).length
          = (xs.filter (fun y => decide (y = x))).length + 1 from by
        rw [List.filter_cons, if_pos (by simp)]; simp]
      rw [List.filter_cons, if_pos (by simpa using hx)]
      have := count_split xs x seen hx
      simp only [List.length_cons]
      omega

theorem countOcc_eq_seq_count (recs : List (LC × LC)) (k : LC) :
    countOcc recs k = ((recs.map Prod.snd).filter (fun y => decide (y = k))).length := by
  induction recs with
  | nil => rfl
  | cons r rs ih =>
    simp only [countOcc, List.map_cons, List.filter_cons]
    by_cases h : r.2 = k
    · rw [if_pos (by simpa using h), if_pos (by simpa using h)]
      simp only [List.length_cons]
      exact congrArg (· + 1) (by simpa [countOcc] using ih)
    · rw [if_neg (by simpa using h), if_neg (by simpa using h)]
      simpa [countOcc] using ih

theorem mapM_parseSize_canon (recs : List (LC × LC)) : ∀ ks : List LC,
    (ks.map (fun k => (k, canonVal recs k))).mapM (fun kv => parseSize ('>' :: kv.2))
      = some (ks.map (fun k => countOcc recs k)) := by
  intro ks
  induction ks with
  | nil => rfl
  | cons k ks ih =>
    have hp : parseSize ('>' :: canonVal recs k) = some (countOcc recs k) :=
      parseSize_tagged ('>' :: (firstId recs k ++ lc "size")) (countOcc recs k)
    rw [List.map_cons, List.mapM_cons, hp, ih]
    rfl

/-- C1: over every parsed FASTQ input, dereplication succeeds and the
size counts embedded in the emitted `>`-headers sum to the number of
input reads: first occurrences contribute `size=1` and each exact
repeat bumps the stored count by one, its own identifier discarded. -/
theorem c1_derep_size_total (recs : List (LC × LC)) :
    ∃ out sizes, dereplicate recs = some out
      ∧ out.mapM (fun kv => parseSize ('>' :: kv.2)) = some sizes
      ∧ sizes.sum = recs.length := by
  refine ⟨canonDerep recs,
    (firstEncounter (recs.map Prod.snd)).map (fun k => countOcc recs k),
    derep_canon recs, mapM_parseSize_canon recs _, ?_⟩
  rw [List.map_congr_left (fun k _ => countOcc_eq_seq_count recs k)]
  rw [show firstEncounter (recs.map Prod.snd) = feAux [] (recs.map Prod.snd) from rfl]
  rw [sum_counts]
  simp

/-- C8 (amended): on the first occurrence of each distinct sequence the
stored annotation is the read identifier directly followed by `size=1;`
with no separator in between, so a sequence occurring exactly once keeps
the value `id ++ "size=1;"` in the dict. -/
theorem c8_first_occurrence_amended (recs : List (LC × LC)) (i sq : LC)
    (h1 : countOcc recs sq = 1) (h2 : firstId recs sq = i) :
    ∃ out, dereplicate recs = some out ∧ assocLookup sq out = some (i ++ lc "size=1;") := by
  refine ⟨canonDerep recs, derep_canon recs, ?_⟩
  have hm : sq ∈ recs.map Prod.snd := countOcc_pos_mem (by omega)
  have hmfe : sq ∈ firstEncounter (recs.map Prod.snd) := (mem_feAux _ _ _).2 ⟨hm, by simp⟩
  have hl := assocLookup_keyfun (canonVal recs) (firstEncounter (recs.map Prod.snd)) sq
  rw [if_pos hmfe] at hl
  rw [show assocLookup sq (canonDerep recs) = some (canonVal recs sq) from hl]
  unfold canonVal
  rw [h1, h2, tag_one]

/-- Witness for C8 (amended) at a one-record input. -/
theorem c8_first_occurrence_witness :
    ∃ out, dereplicate [(lc "r1", lc "ACGT")] = some out
      ∧ assocLookup (lc "ACGT") out = some (lc "r1" ++ lc "size=1;") :=
  c8_first_occurrence_amended [(lc "r1", lc "ACGT")] (lc "r1") (lc "ACGT")
    (by decide) (by decide)

/-- C8 counterexample: the claim's literal stored form `id;size=1;` is
wrong; the code stores `read1size=1;`, not `read1;size=1;`, because no
separator is inserted between the identifier and the annotation. -/
theorem c8_separator_counterexample :
    dereplicate [(lc "read1", lc "ACGT")] = some [(lc "ACGT", lc "read1size=1;")]
      ∧ lc "read1size=1;" ≠ lc "read1;size=1;" := by
  constructor
  · decide
  · decide

/-! ## The hash-table iteration order -/

theorem feAux_seen_ext : ∀ (l s1 s2 : List LC), (∀ z, z ∈ s1 ↔ z ∈ s2) →
    feAux s1 l = feAux s2 l := by
  intro l
  induction l with
  | nil => intro s1 s2 _; rfl
  | cons y ys ih =>
    intro s1 s2 hext
    by_cases hy : y ∈ s1
    · rw [show feAux s1 (y :: ys) = feAux s1 ys from by simp [feAux, hy],
        show feAux s2 (y :: ys) = feAux s2 ys from by simp [feAux, (hext y).1 hy]]
      exact ih s1 s2 hext
    · have hy2 : y ∉ s2 := fun hc => hy ((hext y).2 hc)
      rw [show feAux s1 (y :: ys) = y :: feAux (y :: s1) ys from by simp [feAux, hy],
        show feAux s2 (y :: ys) = y :: feAux (y :: s2) ys from by simp [feAux, hy2]]
      rw [ih (y :: s1) (y :: s2) (by intro z; simp [List.mem_cons, hext z])]

theorem filterMap_set_perm : ∀ (t : List (Option LC)) (s : Nat) (k : LC),
    s < t.length → t.getD s none = none →
    List.Perm ((t.set s (some k)).filterMap id) (k :: t.filterMap id) := by
  intro t
  induction t with
  | nil => intro s k h _; simp at h
  | cons o rest ih =>
    intro s k hs hnone
    cases s with
    | zero =>
      have ho : o = none := by simpa [List.getD] using hnone
      subst ho
      simp
    | succ s2 =>
      have hs2 : s2 < rest.length := by simpa using hs
      have hnone2 : rest.getD s2 none = none := by simpa [List.getD] using hnone
      have ihp := ih s2 k hs2 hnone2
      cases o with
      | none => simpa using ihp
      | some v =>
        simp only [List.set_cons_succ, List.filterMap_cons, id_eq]
        exact (List.Perm.cons v ihp).trans (List.Perm.swap k v _)

theorem probeEmpty_spec : ∀ (fuel i p : Nat) (k : LC) (t t2 : List (Option LC)),
    t.length = 8 → probeEmpty k t i p fuel = some t2 →
    t2.length = 8 ∧ List.Perm (t2.filterMap id) (k :: t.filterMap id) := by
  intro fuel
  induction fuel with
  | zero => intro i p k t t2 _ h; exact Option.noConfusion h
  | succ f ih =>
    intro i p k t t2 hlen h
    simp only [probeEmpty] at h
    cases hslot : t.getD (i % 8) none with
    | none =>
      rw [hslot] at h
      cases h
      refine ⟨by simpa using hlen, ?_⟩
      exact filterMap_set_perm t (i % 8) k
        (by rw [hlen]; exact Nat.mod_lt _ (by omega)) hslot
    | some v =>
      rw [hslot] at h
      exact ih _ _ k t t2 hlen h

theorem dInsert_foldlM_perm : ∀ (keys : List LC) (t t2 : List (Option LC)) (seen : List LC),
    t.length = 8 → List.foldlM dInsert t keys = some t2 →
    List.Perm (t.filterMap id) seen →
    t2.length = 8 ∧ List.Perm (t2.filterMap id) (seen ++ feAux seen keys) := by
  intro keys
  induction keys with
  | nil =>
    intro t t2 seen hlen h hperm
    rw [List.foldlM_nil] at h
    cases h
    exact ⟨hlen, by simpa [feAux] using hperm⟩
  | cons k ks ih =>
    intro t t2 seen hlen h hperm
    rw [List.foldlM_cons] at h
    cases hd : dInsert t k with
    | none => rw [hd] at h; exact Option.noConfusion h
    | some t1 =>
      rw [hd] at h
      have h2 : List.foldlM dInsert t1 ks = some t2 := h
      unfold dInsert at hd
      by_cases hk : k ∈ t.filterMap id
      · rw [if_pos hk] at hd
        cases hd
        have hkseen : k ∈ seen := hperm.mem_iff.1 hk
        have hres := ih t t2 seen hlen h2 hperm
        rwa [show feAux seen (k :: ks) = feAux seen ks from by simp [feAux, hkseen]]
      · rw [if_neg hk] at hd
        obtain ⟨hlen1, hperm1⟩ := probeEmpty_spec _ _ _ k t t1 hlen hd
        have hseen1 : List.Perm (t1.filterMap id) (seen ++ [k]) :=
          (hperm1.trans (hperm.cons k)).trans (List.perm_append_singleton k seen).symm
        have hk2 : k ∉ seen := fun hc => hk (hperm.mem_iff.2 hc)
        have hres := ih t1 t2 (seen ++ [k]) hlen1 h2 hseen1
        refine ⟨hres.1, ?_⟩
        rw [show feAux seen (k :: ks) = k :: feAux (k :: seen) ks from by simp [feAux, hk2]]
        have hfe : feAux (seen ++ [k]) ks = feAux (k :: seen) ks :=
          feAux_seen_ext ks _ _ (by intro z; simp [List.mem_cons, List.mem_append, Or.comm])
        have hres2 := hres.2
        rw [hfe, List.append_assoc] at hres2
        exact hres2

theorem dictOrder_perm {keys order : List LC} (h : dictOrder keys = some order) :
    List.Perm order (firstEncounter keys) := by
  unfold dictOrder at h
  cases hf : List.foldlM dInsert (List.replicate 8 (none : Option LC)) keys with
  | none => rw [hf] at h; exact Option.noConfusion h
  | some t =>
    rw [hf] at h
    cases h
    have hres := dInsert_foldlM_perm keys _ t [] (by simp) hf
      (show List.Perm ((List.replicate 8 (none : Option LC)).filterMap id) [] from List.Perm.nil)
    simpa [firstEncounter] using hres.2

theorem lookupAll_snd : ∀ (order : List LC) (seqs out : List (LC × LC)),
    lookupAll seqs order = some out → out.map Prod.snd = order := by
  intro order
  induction order with
  | nil => intro seqs out h; cases h; rfl
  | cons k ks ih =>
    intro seqs out h
    simp only [lookupAll] at h
    cases hl : assocLookup k seqs with
    | none => rw [hl] at h; exact Option.noConfusion h
    | some v =>
      rw [hl] at h
      cases hm : lookupAll seqs ks with
      | none => rw [hm] at h; exact Option.noConfusion h
      | some outs =>
        rw [hm] at h
        cases h
        simp [ih seqs outs hm]

/-- C7 (amended): the dereplication output lists each distinct input
sequence exactly once — a permutation of the first-encounter order —
but the order itself is the CPython 2 dict's hash-table iteration
order, which need not coincide with first-encounter order. -/
theorem c7_order_amended (recs out : List (LC × LC))
    (h : derepOutputRecords recs = some out) :
    List.Perm (out.map Prod.snd) (firstEncounter (recs.map Prod.snd)) := by
  unfold derepOutputRecords at h
  rw [derep_canon recs] at h
  cases hd : dictOrder (recs.map Prod.snd) with
  | none => rw [hd] at h; exact Option.noConfusion h
  | some order =>
    rw [hd] at h
    rw [lookupAll_snd order (canonDerep recs) out h]
    exact dictOrder_perm hd

/-- Witness for C7 (amended) at the two-read input used below. -/
theorem c7_order_amended_witness :
    List.Perm ([(lc ">r2size=1;", lc "A"), (lc ">r1size=1;", lc "C")].map Prod.snd)
      (firstEncounter ([(lc "r1", lc "C"), (lc "r2", lc "A")].map Prod.snd)) :=
  c7_order_amended [(lc "r1", lc "C"), (lc "r2", lc "A")]
    [(lc ">r2size=1;", lc "A"), (lc ">r1size=1;", lc "C")] (by decide)

/-- C7 counterexample: for the input reads `r1 -> C` then `r2 -> A`,
CPython 2.7 places `C` in slot 2 and `A` in slot 0 of the dict's
8-slot table, so iteration emits `A` before `C`: the output order is
the hash-table order `[A, C]`, not the first-encounter order `[C, A]`. -/
theorem c7_order_counterexample :
    (derepOutputRecords [(lc "r1", lc "C"), (lc "r2", lc "A")]).map
        (fun out => out.map Prod.snd) = some [lc "A", lc "C"]
      ∧ firstEncounter ([(lc "r1", lc "C"), (lc "r2", lc "A")].map Prod.snd) = [lc "C", lc "A"]
      ∧ some [lc "A", lc "C"] ≠ some [lc "C", lc "A"] := by
  refine ⟨by decide, by decide, by decide⟩

/-! ## The mock accuracy aggregation -/

theorem mockLoop_spec : ∀ (rows : List (LC × Int)) (s : MockStats),
    rows.foldl mockStep s = ⟨s.num_otus + ((rows.filter isPos).length : Int),
      s.mock_found + ((rows.filter goodRow).length : Int),
      s.good_otu ++ (rows.filter goodRow).map Prod.snd,
      s.bad_otu ++ (rows.filter badRow).map Prod.snd⟩ := by
  intro rows
  induction rows with
  | nil => intro s; cases s; simp
  | cons r rs ih =>
    intro s
    rw [List.foldl_cons, ih (mockStep s r)]
    by_cases hp : 0 < r.2
    · by_cases ho : containsOTU r.1 = true
      · simp [mockStep, isPos, goodRow, badRow, hp, ho, List.filter_cons,
          MockStats.mk.injEq, List.append_assoc]
        omega
      · simp [mockStep, isPos, goodRow, badRow, hp, ho, List.filter_cons,
          MockStats.mk.injEq, List.append_assoc]
        constructor
        · omega
        · omega
    · simp [mockStep, isPos, goodRow, badRow, hp, List.filter_cons]

theorem pos_split (rows : List (LC × Int)) :
    (rows.filter isPos).length
      = (rows.filter goodRow).length + (rows.filter badRow).length := by
  induction rows with
  | nil => rfl
  | cons r rs ih =>
    simp only [List.filter_cons]
    by_cases hp : isPos r = true
    · by_cases ho : containsOTU r.1 = true
      · simp [goodRow, badRow, hp, ho]
        omega
      · simp [goodRow, badRow, hp, ho]
        omega
    · have hp2 : isPos r = false := by simp [Bool.not_eq_true] at hp; exact hp
      simp [goodRow, badRow, hp2]
      exact ih

/-- C2: in every accuracy summary `num_otus = mock_found + spurious`,
where `num_otus` counts the positive-abundance rows, `mock_found` the
positive rows without the substring `OTU` in their identifier, and
`spurious` the positive rows with it. -/
theorem c2_accuracy_counts (rows : List (LC × Int)) :
    (mockLoop rows).num_otus = (mockLoop rows).mock_found + spuriousOf (mockLoop rows)
    ∧ (mockLoop rows).num_otus = ((rows.filter isPos).length : Int)
    ∧ (mockLoop rows).mock_found = ((rows.filter goodRow).length : Int)
    ∧ spuriousOf (mockLoop rows) = ((rows.filter badRow).length : Int) := by
  have h := mockLoop_spec rows mockInit
  have hs := pos_split rows
  rw [show mockLoop rows = rows.foldl mockStep mockInit from rfl, h]
  refine ⟨?_, ?_, ?_, ?_⟩ <;> (simp [spuriousOf, mockInit]; try omega)

/-- C10: the reported abundance lists describe exactly the counted
rows: `good_otu` collects the abundances of the positive rows without
`OTU` in the identifier (so its length is `mock_found`), `bad_otu`
those with it (so its length is `spurious`). -/
theorem c10_report_lists (rows : List (LC × Int)) :
    ((mockLoop rows).good_otu.length : Int) = (mockLoop rows).mock_found
    ∧ ((mockLoop rows).bad_otu.length : Int) = spuriousOf (mockLoop rows)
    ∧ (mockLoop rows).good_otu = (rows.filter goodRow).map Prod.snd
    ∧ (mockLoop rows).bad_otu = (rows.filter badRow).map Prod.snd := by
  have h := mockLoop_spec rows mockInit
  have hs := pos_split rows
  rw [show mockLoop rows = rows.foldl mockStep mockInit from rfl, h]
  refine ⟨?_, ?_, ?_, ?_⟩ <;> (simp [spuriousOf, mockInit]; try omega)

/-! ## Padding cleanup -/

theorem headerLine_ne_nil {l : LC} (h : headerLine l = true) : l ≠ [] := by
  cases l with
  | nil => exact Bool.noConfusion h
  | cons c cs => exact List.cons_ne_nil c cs

theorem headerLine_subGATC (l : LC) : headerLine (subGATC l) = false := by
  cases hs : subGATC l with
  | nil => rfl
  | cons c cs =>
    have hc : isGATC c = true := by
      have hmem : c ∈ subGATC l := by rw [hs]; exact List.mem_cons_self c cs
      exact List.of_mem_filter hmem
    have hne : ¬ c = '>' := by
      intro heq
      rw [heq] at hc
      exact Bool.noConfusion hc
    simp [headerLine, hne]

/-- C3: padding cleanup copies header lines verbatim (preserving the
header-line count exactly), emits only characters of `{G, A, T, C}` on
non-header lines, every emitted non-header line is the `GATC`-filter
(hence a subsequence) of an input line, no empty line is ever written,
and the mixed-case line `ACGTNNNNacgtXYZ` becomes `ACGT`. -/
theorem c3_padding_cleanup :
    (∀ ls : List LC,
        (cleanPadding ls).countP headerLine = ls.countP headerLine
        ∧ (∀ l ∈ cleanPadding ls, headerLine l = false → ∀ c ∈ l, isGATC c = true)
        ∧ (∀ l ∈ cleanPadding ls, headerLine l = false →
            ∃ l0 ∈ ls, l = subGATC l0 ∧ List.Sublist l l0)
        ∧ (∀ l ∈ cleanPadding ls, l ≠ []))
    ∧ cleanPadding [lc "ACGTNNNNacgtXYZ"] = [lc "ACGT"] := by
  constructor
  · intro ls
    induction ls with
    | nil => simp [cleanPadding]
    | cons l rest ih =>
      by_cases hh : headerLine l = true
      · rw [show cleanPadding (l :: rest) = l :: cleanPadding rest from by
          simp [cleanPadding, hh]]
        refine ⟨?_, ?_, ?_, ?_⟩
        · simp [List.countP_cons, hh, ih.1]
        · intro l2 hl2 hnf c hc
          rcases List.mem_cons.1 hl2 with rfl | h2
          · rw [hh] at hnf; exact Bool.noConfusion hnf
          · exact ih.2.1 l2 h2 hnf c hc
        · intro l2 hl2 hnf
          rcases List.mem_cons.1 hl2 with rfl | h2
          · rw [hh] at hnf; exact Bool.noConfusion hnf
          · obtain ⟨l0, hl0, he, hsub⟩ := ih.2.2.1 l2 h2 hnf
            exact ⟨l0, List.mem_cons_of_mem _ hl0, he, hsub⟩
        · intro l2 hl2
          rcases List.mem_cons.1 hl2 with rfl | h2
          · exact headerLine_ne_nil hh
          · exact ih.2.2.2 l2 h2
      · by_cases hemp : subGATC l = []
        · rw [show cleanPadding (l :: rest) = cleanPadding rest from by
            simp [cleanPadding, hh, hemp]]
          refine ⟨?_, ih.2.1, ?_, ih.2.2.2⟩
          · rw [List.countP_cons, ih.1]
            simp [hh]
          · intro l2 hl2 hnf
            obtain ⟨l0, hl0, he, hsub⟩ := ih.2.2.1 l2 hl2 hnf
            exact ⟨l0, List.mem_cons_of_mem _ hl0, he, hsub⟩
        · rw [show cleanPadding (l :: rest) = subGATC l :: cleanPadding rest from by
            simp [cleanPadding, hh, hemp]]
          refine ⟨?_, ?_, ?_, ?_⟩
          · rw [List.countP_cons, List.countP_cons, ih.1]
            simp [hh, headerLine_subGATC]
          · intro l2 hl2 hnf c hc
            rcases List.mem_cons.1 hl2 with rfl | h2
            · exact List.of_mem_filter hc
            · exact ih.2.1 l2 h2 hnf c hc
          · intro l2 hl2 hnf
            rcases List.mem_cons.1 hl2 with rfl | h2
            · exact ⟨l, List.mem_cons_self _ _, rfl, List.filter_sublist l⟩
            · obtain ⟨l0, hl0, he, hsub⟩ := ih.2.2.1 l2 h2 hnf
              exact ⟨l0, List.mem_cons_of_mem _ hl0, he, hsub⟩
          · intro l2 hl2
            rcases List.mem_cons.1 hl2 with rfl | h2
            · exact hemp
            · exact ih.2.2.2 l2 h2
  · decide

/-- Witness for C3 at a two-line file: a header and a padded sequence. -/
theorem c3_padding_cleanup_witness : isGATC 'A' = true := by
  have h := (c3_padding_cleanup.1 [lc ">h1", lc "ACGTN"]).2.1
  exact h (lc "ACGT") (by decide) (by decide) 'A' (by decide)

/-! ## Mock annotation -/

/-- C4 (amended): sequence lines pass through unchanged; a header line
with at least one whitespace-delimited token is rewritten to `'>'`
followed by the mapped label when the first token is a key of the
annotation dictionary, and otherwise by the concatenation of all the
header's tokens (not the first token alone); the emitted line is never
blank. -/
theorem c4_annotation_amended (annot : List (LC × LC)) (line : LC) :
    (headerLine line = false → mockAnnotateLine annot line = some line)
    ∧ (headerLine line = true → ∀ t0 rest, splitWs (line.drop 1) = t0 :: rest →
        mockAnnotateLine annot line = some ('>' ::
          (match assocLookup t0 annot with
           | some label => label
           | none => (t0 :: rest).flatten))
        ∧ ∀ out, mockAnnotateLine annot line = some out → out ≠ []) := by
  constructor
  · intro hh
    simp [mockAnnotateLine, hh]
  · intro hh t0 rest hsplit
    constructor
    · simp only [mockAnnotateLine, hh, if_true, hsplit]
      cases assocLookup t0 annot <;> rfl
    · intro out hout
      simp only [mockAnnotateLine, hh, if_true, hsplit] at hout
      cases hl : assocLookup t0 annot with
      | some label =>
        rw [hl] at hout
        cases hout
        exact List.cons_ne_nil _ _
      | none =>
        rw [hl] at hout
        cases hout
        exact List.cons_ne_nil _ _

/-- Witness for C4 (amended) at a two-token header missing from the
dictionary. -/
theorem c4_annotation_witness :
    mockAnnotateLine [] (lc ">OTU_1 hello")
      = some ('>' :: (match assocLookup (lc "OTU_1") [] with
          | some label => label
          | none => ([lc "OTU_1", lc "hello"]).flatten)) :=
  ((c4_annotation_amended [] (lc ">OTU_1 hello")).2 (by decide)
    (lc "OTU_1") [lc "hello"] (by decide)).1

/-- C4 counterexample: on the header `>OTU_1 hello` with an empty
annotation dictionary the code emits `>OTU_1hello`, the concatenation
of both tokens, not the claimed first token `>OTU_1` alone. -/
theorem c4_join_counterexample :
    mockAnnotateLine [] (lc ">OTU_1 hello") = some (lc ">OTU_1hello")
      ∧ lc ">OTU_1hello" ≠ lc ">OTU_1" := by
  refine ⟨by decide, by decide⟩

/-! ## The pipeline dataflow and the size guard -/

theorem otu_out_ne_otu_clean (c : Config) : otu_out c ≠ otu_clean c := by
  intro heq
  have hlen := congrArg String.length heq
  simp only [otu_out, otu_clean, String.length_append,
    show (".EE" : String).length = 3 from rfl,
    show (".otus.fa" : String).length = 8 from rfl,
    show (".clean.otus.fa" : String).length = 14 from rfl] at hlen
  omega

/-- C5: the chimera-filter stage does not consume the padding-cleaned
OTU file.  Whenever the stage is enabled, the executed command passes
`otu_out` (the raw clustering output) as the `-uchime_ref` query, while
the command the script itself logs at line 198 — and the claimed
dataflow — has `otu_clean` there; the two file names always differ. -/
theorem c5_uchime_query_bug (c : Config) (h : c.uchime_ref ≠ "False") :
    Step.run (uchimeCmd c) ∈ pipelineSteps c
    ∧ (uchimeCmd c).get? 2 = some (otu_out c)
    ∧ (uchimeLoggedCmd c).get? 2 = some (otu_clean c)
    ∧ otu_out c ≠ otu_clean c := by
  refine ⟨?_, rfl, rfl, otu_out_ne_otu_clean c⟩
  simp [pipelineSteps, h]

/-- Witness for C5 at the default configuration with `--uchime_ref ITS1`. -/
theorem c5_uchime_query_bug_witness :
    Step.run (uchimeCmd cfgUch) ∈ pipelineSteps cfgUch
    ∧ (uchimeCmd cfgUch).get? 2 = some (otu_out cfgUch)
    ∧ (uchimeLoggedCmd cfgUch).get? 2 = some (otu_clean cfgUch)
    ∧ otu_out cfgUch ≠ otu_clean cfgUch :=
  c5_uchime_query_bug cfgUch (by decide)

/-- C9: any input whose byte size is at least `4294967296` (including
exactly that size) makes the pipeline exit with status 1 before any
processing stage executes. -/
theorem c9_size_guard (c : Config) (size : Nat) (h : 4294967296 ≤ size) :
    pipelineRun c size = Except.error 1 ∧ (1 : Nat) ≠ 0 := by
  refine ⟨?_, by omega⟩
  unfold pipelineRun
  rw [if_pos h]

/-- Witness for C9 at a file of exactly `4294967296` bytes. -/
theorem c9_size_guard_witness :
    pipelineRun cfgEx 4294967296 = Except.error 1 ∧ (1 : Nat) ≠ 0 :=
  c9_size_guard cfgEx 4294967296 (Nat.le_refl _)

/-! ## The accuracy report branches -/

/-- C6: the report does not degrade gracefully on the real-OTU side.
With one (or two) real mock OTUs found the code still indexes
`good_otu[1]` and `good_otu[2]` and raises `IndexError` (the `none`
results below), while the spurious side with one or two entries prints
through its dedicated branches without error (the `isSome` results). -/
theorem c6_report_crash :
    accuracyReport [(lc "MockA", 10)] = none
    ∧ accuracyReport [(lc "MockA", 10), (lc "MockB", 3)] = none
    ∧ (accuracyReport [(lc "xOTUy", 10)]).isSome = true
    ∧ (accuracyReport [(lc "xOTUy", 10), (lc "OTU_2", 7)]).isSome = true := by
  refine ⟨by decide, by decide, by decide, by decide⟩

end Amptk
